import Mathlib

/-!
A shallow embedding of `src/lib/almanac/src/lib.rs` (Advent of Code 2023,
day 5).  Rust `u64` values are modelled as `Nat`; all arithmetic performed
by the program on the inputs considered stays far below `2^64`, so no
wrap-around is modelled.  The `BTreeMap<TranslationValue, TranslationValue>`
is modelled as an association list kept sorted by the (interval-overlap)
comparator of `impl Ord for TranslationValue`, with `insert` replacing the
value of a comparator-equal key while keeping the stored key, exactly as
`BTreeMap::insert` does.  A Rust panic (out-of-bounds index) is modelled as
the outer `none` of an `Option (Option Nat)` result; recursion in `walk`
is modelled with explicit fuel, and running out of fuel is also `none`
(shown unreachable below).
-/

namespace AlmanacLib

/-- `ValueType` from the source: the eight categories of the chain. -/
inductive ValueType where
  | Seed
  | Soil
  | Fertilizer
  | Water
  | Light
  | Temperature
  | Humidity
  | Location
deriving DecidableEq, Repr

/-- Variant index in declaration order, giving the derived `Ord` of the Rust enum. -/
def ValueType.idx : ValueType → Nat
  | .Seed => 0
  | .Soil => 1
  | .Fertilizer => 2
  | .Water => 3
  | .Light => 4
  | .Temperature => 5
  | .Humidity => 6
  | .Location => 7

/-- `ValueType::next_variant`: the successor in the chain, `none` at `Location`. -/
def ValueType.nextVariant : ValueType → Option ValueType
  | .Seed => some .Soil
  | .Soil => some .Fertilizer
  | .Fertilizer => some .Water
  | .Water => some .Light
  | .Light => some .Temperature
  | .Temperature => some .Humidity
  | .Humidity => some .Location
  | .Location => none

/-- Distance to `Location` along the chain; strictly decreases through `nextVariant`. -/
def ValueType.rank : ValueType → Nat
  | .Seed => 7
  | .Soil => 6
  | .Fertilizer => 5
  | .Water => 4
  | .Light => 3
  | .Temperature => 2
  | .Humidity => 1
  | .Location => 0

/-- `TranslationValue`: a category together with a half-open `u64` range
`start..stop` (Rust `Range<u64>`). -/
structure TranslationValue where
  typ : ValueType
  start : Nat
  stop : Nat
deriving DecidableEq, Repr

/-- `impl Ord for TranslationValue`: compare by category first; within a
category, a value is `lt` when its range ends at or before the other's
start, `gt` when it starts at or after the other's end, and `eq` when the
two ranges overlap. -/
def tvCmp (a b : TranslationValue) : Ordering :=
  match compare a.typ.idx b.typ.idx with
  | .lt => .lt
  | .gt => .gt
  | .eq =>
    if a.stop ≤ b.start then .lt
    else if b.stop ≤ a.start then .gt
    else .eq

/-- The `BTreeMap<TranslationValue, TranslationValue>` inside `TranslationMap`,
modelled as its sorted entry list (iteration order of the tree). -/
abbrev TranslationMap := List (TranslationValue × TranslationValue)

/-- `BTreeMap::insert` under `tvCmp`: place the new entry at its ordered
position; on a comparator-equal key, replace the value but keep the stored key. -/
def insertBTree : TranslationMap → TranslationValue → TranslationValue → TranslationMap
  | [], k, v => [(k, v)]
  | (k₀, v₀) :: rest, k, v =>
    match tvCmp k k₀ with
    | .lt => (k, v) :: (k₀, v₀) :: rest
    | .eq => (k₀, v) :: rest
    | .gt => (k₀, v₀) :: insertBTree rest k v

/-- `TranslationMap::add_translation`. -/
def addTranslation (m : TranslationMap) (k v : TranslationValue) : TranslationMap :=
  insertBTree m k v

/-- `BTreeMap::contains_key` under `tvCmp`: some stored key compares `eq`. -/
def containsKey (m : TranslationMap) (k : TranslationValue) : Bool :=
  m.any fun kv => tvCmp kv.1 k == .eq

/-- The key filter at the top of `walk`:
`key.typ == from && range.start <= key.range.end && key.range.start <= range.end`. -/
def overlapKeys (m : TranslationMap) (frm : ValueType) (rs re : Nat) : TranslationMap :=
  m.filter fun kv => decide (kv.1.typ = frm ∧ rs ≤ kv.1.stop ∧ kv.1.start ≤ re)

/-- The per-key range translation inside `walk`: `diff` is
`abs_diff(value.start, key.start)` and the clipped probe range is shifted up
or down by `diff` according to the sign of the offset. -/
def translateRange (k v : TranslationValue) (rs re : Nat) : Nat × Nat :=
  if k.start < v.start then
    let diff := v.start - k.start
    (max k.start rs + diff, min k.stop re + diff)
  else
    let diff := k.start - v.start
    (max k.start rs - diff, min k.stop re - diff)

/-- `TranslationMap::walk` with explicit fuel bounding the recursion depth;
`none` is returned when the fuel runs out (never, for fuel above the rank)
or when the Rust function would return `None`. -/
def walkF : Nat → TranslationMap → ValueType → Nat → Nat → Option Nat
  | 0, _, _, _, _ => none
  | fuel + 1, m, frm, rs, re =>
    let keys := overlapKeys m frm rs re
    match frm.nextVariant with
    | none => some rs
    | some next =>
      if keys.isEmpty then walkF fuel m next rs re
      else
        (keys.filterMap fun kv =>
          let nr := translateRange kv.1 kv.2 rs re
          walkF fuel m next nr.1 nr.2).min?

/-- `TranslationMap::walk`; fuel 8 covers the whole chain (`rank ≤ 7`). -/
def walk (m : TranslationMap) (frm : ValueType) (rs re : Nat) : Option Nat :=
  walkF 8 m frm rs re

/-- `TranslationMap::get_location_of_seed`: the point query `walk(Seed, seed..seed)`. -/
def getLocationOfSeed (m : TranslationMap) (seed : Nat) : Option Nat :=
  walk m .Seed seed seed

/-- `Almanac`: the seed list plus the (shared, immutable) translation map. -/
structure Almanac where
  seeds : List Nat
  translation : TranslationMap
deriving DecidableEq, Repr

/-- `u64::MAX`. -/
def U64MAX : Nat := 2 ^ 64 - 1

/-- `slice::chunks(2)`: consecutive pairs, with a final singleton chunk when
the length is odd. -/
def chunksTwo : List Nat → List (List Nat)
  | [] => []
  | [a] => [[a]]
  | a :: b :: rest => [a, b] :: chunksTwo rest

/-- The loop body of `get_lowest_location_of_seed_ranges`.  The outer `none`
models the panic of the unguarded `chunk[1]` on a short chunk; the inner
option is the Rust `Option` (the `?` on `translate_range`). -/
def rangesLoop (m : TranslationMap) : List (List Nat) → Nat → Option (Option Nat)
  | [], minv => some (some minv)
  | chunk :: rest, minv =>
    match chunk with
    | [c0, c1] =>
      match walk m .Seed c0 (c0 + c1) with
      | none => some none
      | some r => rangesLoop m rest (if r < minv then r else minv)
    | _ => none

/-- `Almanac::get_lowest_location_of_seed_ranges`: fold the chunk ranges
through `walk`, starting from `u64::MAX`. -/
def Almanac.getLowestLocationOfSeedRanges (a : Almanac) : Option (Option Nat) :=
  rangesLoop a.translation (chunksTwo a.seeds) U64MAX

/-- `Almanac::get_lowest_location`: minimum of the point queries over `seeds`. -/
def Almanac.getLowestLocation (a : Almanac) : Option Nat :=
  (a.seeds.filterMap (getLocationOfSeed a.translation)).min?

/-- `ParseAlmanacError`. -/
inductive ParseAlmanacError where
  | parseInt
  | getSeeds
  | invalidMapKey (key : String)
  | noKeyFound
deriving DecidableEq, Repr

/-- `pat` occurs at the head of `s`. -/
def subAt : List Char → List Char → Bool
  | [], _ => true
  | _ :: _, [] => false
  | a :: as, b :: bs => a == b && subAt as bs

/-- `pat` occurs somewhere in `s` (Rust `str::contains`). -/
def hasSub (pat : List Char) : List Char → Bool
  | [] => pat.isEmpty
  | c :: rest => subAt pat (c :: rest) || hasSub pat rest

/-- Rust `str::contains` on strings. -/
def strContains (s pat : String) : Bool :=
  hasSub pat.toList s.toList

/-- The header match of `Almanac::from_str`: the seven `contains` tests in
source order, `none` for an invalid map key. -/
def matchMapKey (key : String) : Option (ValueType × ValueType) :=
  if strContains key "seed-to-soil" then some (.Seed, .Soil)
  else if strContains key "soil-to-fertilizer" then some (.Soil, .Fertilizer)
  else if strContains key "fertilizer-to-water" then some (.Fertilizer, .Water)
  else if strContains key "water-to-light" then some (.Water, .Light)
  else if strContains key "light-to-temperature" then some (.Light, .Temperature)
  else if strContains key "temperature-to-humidity" then some (.Temperature, .Humidity)
  else if strContains key "humidity-to-location" then some (.Humidity, .Location)
  else none

/-- One numeric row of a map section, as parsed by `from_str`:
`(dest_start, source_start, length)` in that order. -/
abbrev MappingRow := Nat × Nat × Nat

/-- The row loop of `from_str`: each row `(dest, src_start, len)` registers
`(source, src_start, len + src_start) ↦ (destination, dest, len + dest)`. -/
def addRows (src dst : ValueType) (m : TranslationMap) (rows : List MappingRow) : TranslationMap :=
  rows.foldl
    (fun acc row =>
      addTranslation acc ⟨src, row.2.1, row.2.2 + row.2.1⟩ ⟨dst, row.1, row.2.2 + row.1⟩)
    m

/-- The gap-fill loop of `from_str`, iterating over the snapshot of the
source-category keys with the running lower bound `frm` (Rust `from`). -/
def fillGapsLoop (src dst : ValueType) : List TranslationValue → TranslationMap → Nat → TranslationMap
  | [], m, _ => m
  | key :: rest, m, frm =>
    let v := key.start
    if v = 0 then fillGapsLoop src dst rest m v
    else
      let newKey : TranslationValue := ⟨src, frm, v⟩
      let m' := if containsKey m newKey then m else addTranslation m newKey ⟨dst, frm, v⟩
      fillGapsLoop src dst rest m' v

/-- The gap-fill step for one section: snapshot the source-category keys in
map order, then run the loop from `from = 0`. -/
def fillGaps (src dst : ValueType) (m : TranslationMap) : TranslationMap :=
  fillGapsLoop src dst ((m.filter fun kv => kv.1.typ == src).map Prod.fst) m 0

/-- One section as `from_str` sees it after splitting: the header line and
the parsed numeric rows. -/
abbrev MapSection := String × List MappingRow

/-- The per-section body of `from_str`: validate the header, register the
rows, fill gaps.  No validation of the rows themselves is performed. -/
def processSection (m : TranslationMap) (sec : MapSection) : Except ParseAlmanacError TranslationMap :=
  match matchMapKey sec.1 with
  | none => .error (.invalidMapKey sec.1)
  | some (src, dst) => .ok (fillGaps src dst (addRows src dst m sec.2))

/-- The section loop of `from_str`, threading the map through the sections. -/
def buildMap : TranslationMap → List MapSection → Except ParseAlmanacError TranslationMap
  | m, [] => .ok m
  | m, sec :: rest =>
    match processSection m sec with
    | .error e => .error e
    | .ok m' => buildMap m' rest

/-- `Almanac::from_str`, from the seed numbers and the split sections. -/
def buildAlmanac (seeds : List Nat) (sections : List MapSection) : Except ParseAlmanacError Almanac :=
  (buildMap [] sections).map fun m => { seeds := seeds, translation := m }

/-- The seed line of the `EXAMPLE` input. -/
def exampleSeeds : List Nat := [79, 14, 55, 13]

/-- The seven map sections of the `EXAMPLE` input, rows as
`(dest_start, source_start, length)`. -/
def exampleSections : List MapSection :=
  [("seed-to-soil map:", [(50, 98, 2), (52, 50, 48)]),
   ("soil-to-fertilizer map:", [(0, 15, 37), (37, 52, 2), (39, 0, 15)]),
   ("fertilizer-to-water map:", [(49, 53, 8), (0, 11, 42), (42, 0, 7), (57, 7, 4)]),
   ("water-to-light map:", [(88, 18, 7), (18, 25, 70)]),
   ("light-to-temperature map:", [(45, 77, 23), (81, 45, 19), (68, 64, 13)]),
   ("temperature-to-humidity map:", [(0, 69, 1), (1, 0, 69)]),
   ("humidity-to-location map:", [(60, 56, 37), (56, 93, 4)])]

/-- The `Almanac` built from the `EXAMPLE` input. -/
def exampleAlmanac : Except ParseAlmanacError Almanac :=
  buildAlmanac exampleSeeds exampleSections

/-- Modelled from the spec's words for comparison with `overlapKeys`
(the definition taken from the source): the entries whose source interval
intersects the probe range under strict half-open semantics, i.e. the two
intervals share at least one point (`a < d` and `c < b` for `[a,b)` against
`[c,d)`). -/
def specOverlapKeys (m : TranslationMap) (frm : ValueType) (rs re : Nat) : TranslationMap :=
  m.filter fun kv => decide (kv.1.typ = frm ∧ kv.1.start < re ∧ rs < kv.1.stop)

/-- `s` lies in some stored source interval of category `t` (half-open). -/
def coveredBy (m : TranslationMap) (t : ValueType) (s : Nat) : Prop :=
  ∃ kv ∈ m, kv.1.typ = t ∧ kv.1.start ≤ s ∧ s < kv.1.stop

/-- A single-section input whose explicit mappings `[10,20)` and `[30,40)`
leave the gap `[20,30)` between them. -/
def gapSection : MapSection := ("seed-to-soil map:", [(100, 10, 10), (200, 30, 10)])

/-- A one-entry map used to probe boundary behaviour of `walk`. -/
def boundaryMap : TranslationMap := [(⟨.Seed, 0, 5⟩, ⟨.Soil, 10, 15⟩)]

theorem rank_of_nextVariant (c c' : ValueType) (h : c.nextVariant = some c') :
    c'.rank + 1 = c.rank := by
  cases c <;> simp only [ValueType.nextVariant, Option.some.injEq] at h <;>
    first
    | exact Option.noConfusion h
    | (subst h; rfl)

theorem rank_lt_eight (c : ValueType) : c.rank < 8 := by
  cases c <;> decide

theorem walkF_fuel_eq (f : Nat) :
    ∀ (frm : ValueType) (m : TranslationMap) (rs re g : Nat),
      frm.rank < f → frm.rank < g →
      walkF f m frm rs re = walkF g m frm rs re := by
  induction f with
  | zero => exact fun frm _ _ _ _ hf _ => absurd hf (Nat.not_lt_zero _)
  | succ n ih =>
    intro frm m rs re g hf hg
    cases g with
    | zero => exact absurd hg (Nat.not_lt_zero _)
    | succ k =>
      cases hnv : frm.nextVariant with
      | none => simp [walkF, hnv]
      | some next =>
        have hr : next.rank + 1 = frm.rank := rank_of_nextVariant frm next hnv
        have h1 : next.rank < n := by omega
        have h2 : next.rank < k := by omega
        have hrw : ∀ rs' re' : Nat, walkF n m next rs' re' = walkF k m next rs' re' :=
          fun rs' re' => ih next m rs' re' k h1 h2
        simp only [walkF, hnv]
        simp only [hrw]

theorem walkF_isSome (f : Nat) :
    ∀ (frm : ValueType) (m : TranslationMap) (rs re : Nat),
      frm.rank < f → (walkF f m frm rs re).isSome = true := by
  induction f with
  | zero => exact fun frm _ _ _ hf => absurd hf (Nat.not_lt_zero _)
  | succ n ih =>
    intro frm m rs re hf
    cases hnv : frm.nextVariant with
    | none => simp [walkF, hnv]
    | some next =>
      have hr : next.rank + 1 = frm.rank := rank_of_nextVariant frm next hnv
      have h1 : next.rank < n := by omega
      by_cases hk : (overlapKeys m frm rs re).isEmpty
      · have := ih next m rs re h1
        simp [walkF, hnv, hk, this]
      · obtain ⟨a, t, hat⟩ : ∃ a t, overlapKeys m frm rs re = a :: t := by
          cases hkk : overlapKeys m frm rs re with
          | nil => rw [hkk] at hk; simp at hk
          | cons a t => exact ⟨a, t, rfl⟩
        have hfa := ih next m (translateRange a.1 a.2 rs re).1 (translateRange a.1 a.2 rs re).2 h1
        obtain ⟨b, hb⟩ := Option.isSome_iff_exists.mp hfa
        simp [walkF, hnv, hat, hb, List.min?]

theorem walk_isSome (m : TranslationMap) (frm : ValueType) (rs re : Nat) :
    (walk m frm rs re).isSome = true :=
  walkF_isSome 8 frm m rs re (rank_lt_eight frm)

theorem walkF_point_outside (f : Nat) :
    ∀ (frm : ValueType) (m : TranslationMap) (s : Nat),
      frm.rank < f → (∀ kv ∈ m, ¬ (kv.1.start ≤ s ∧ s ≤ kv.1.stop)) →
      walkF f m frm s s = some s := by
  induction f with
  | zero => exact fun frm _ _ hf _ => absurd hf (Nat.not_lt_zero _)
  | succ n ih =>
    intro frm m s hf h
    have hkeys : overlapKeys m frm s s = [] := by
      refine List.filter_eq_nil_iff.mpr ?_
      intro kv hkv
      have := h kv hkv
      simp only [decide_eq_true_eq]
      rintro ⟨-, h2, h3⟩
      exact this ⟨h3, h2⟩
    cases hnv : frm.nextVariant with
    | none => simp [walkF, hnv]
    | some next =>
      have hr : next.rank + 1 = frm.rank := rank_of_nextVariant frm next hnv
      have h1 : next.rank < n := by omega
      have := ih next m s h1 h
      simp [walkF, hnv, hkeys, this]

/-- C1: on the Almanac built from the EXAMPLE input (seeds `[79, 14, 55, 13]`
and the seven map sections), `get_lowest_location` returns `Some 35` and
`get_lowest_location_of_seed_ranges` returns (without panicking) `Some 46`. -/
theorem example_solutions :
    exampleAlmanac.map Almanac.getLowestLocation = .ok (some 35) ∧
    exampleAlmanac.map Almanac.getLowestLocationOfSeedRanges = .ok (some (some 46)) :=
  ⟨rfl, rfl⟩

/-- C2 counterexample: in `boundaryMap`, the value `5` is covered by no
explicit mapping under half-open semantics, yet `walk(Seed, 5..5)` returns
`Some 15` rather than `Some 5`: the key filter of `walk` uses
`range.start <= key.range.end`, so it also selects a key whose source range
merely ends at the probed value and translates it. -/
theorem uncovered_boundary_translated :
    (boundaryMap.all fun kv => !(decide (kv.1.start ≤ 5 ∧ 5 < kv.1.stop))) = true ∧
    walk boundaryMap .Seed 5 5 = some 15 ∧
    (some 15 : Option Nat) ≠ some 5 :=
  ⟨by decide, by decide, by decide⟩

/-- C2 amended: for every value `s` that at every stage lies outside every
stored source interval including its right endpoint (no stored key satisfies
`start ≤ s ≤ end`, the selection test of `walk` at a point probe), the point
query `walk(Seed, s..s)` returns `Some s`. -/
theorem walk_outside_point_id (m : TranslationMap) (s : Nat)
    (h : ∀ kv ∈ m, ¬ (kv.1.start ≤ s ∧ s ≤ kv.1.stop)) :
    walk m .Seed s s = some s :=
  walkF_point_outside 8 .Seed m s (by decide) h

/-- Witness for `walk_outside_point_id` at a concrete map and value. -/
theorem walk_outside_point_id_witness :
    walk [(⟨.Seed, 10, 20⟩, ⟨.Soil, 0, 10⟩)] .Seed 30 30 = some 30 :=
  walk_outside_point_id [(⟨.Seed, 10, 20⟩, ⟨.Soil, 0, 10⟩)] 30 (by decide)

/-- C3: for an explicit mapping registered as source `[ks, ks+len)` and
destination `[vs, vs+len)`, one stage of `walk`'s range translation maps a
point `s ∈ [ks, ks+len)` to exactly `vs + (s - ks)`; and in general, for a
selected key `[ks,ke) ↦ [vs,ve)` and probe `[rs,re)`, the translated range is
the intersection of the probe with the key's source interval shifted by the
signed offset `vs - ks`. -/
theorem stage_translation_exact :
    (∀ (t t' : ValueType) (ks len vs s : Nat), ks ≤ s → s < ks + len →
      translateRange ⟨t, ks, ks + len⟩ ⟨t', vs, vs + len⟩ s s =
        (vs + (s - ks), vs + (s - ks))) ∧
    (∀ (t t' : ValueType) (ks ke vs ve rs re : Nat), ks ≤ ke → ks ≤ re →
      ((translateRange ⟨t, ks, ke⟩ ⟨t', vs, ve⟩ rs re).1 : ℤ) =
        (max ks rs : ℤ) + ((vs : ℤ) - (ks : ℤ)) ∧
      ((translateRange ⟨t, ks, ke⟩ ⟨t', vs, ve⟩ rs re).2 : ℤ) =
        (min ke re : ℤ) + ((vs : ℤ) - (ks : ℤ))) := by
  constructor
  · intro t t' ks len vs s h1 h2
    simp only [translateRange]
    split <;> simp only [Prod.mk.injEq] <;> constructor <;> omega
  · intro t t' ks ke vs ve rs re hke hre
    simp only [translateRange]
    split <;> constructor <;> push_cast <;> omega

/-- Witness for `stage_translation_exact` at the first explicit mapping of the
EXAMPLE (`52 50 48`) and seed 79. -/
theorem stage_translation_exact_witness :
    translateRange ⟨.Seed, 50, 50 + 48⟩ ⟨.Soil, 52, 52 + 48⟩ 79 79 = (52 + (79 - 50), 52 + (79 - 50)) :=
  stage_translation_exact.1 .Seed .Soil 50 48 52 79 (by decide) (by decide)

/-- C5 counterexample: with an empty seed list, `get_lowest_location_of_seed_ranges`
returns `Some(u64::MAX)` — the untouched initial accumulator — not `None` as
the claim states. -/
theorem empty_seeds_sentinel :
    Almanac.getLowestLocationOfSeedRanges ⟨[], []⟩ = some (some U64MAX) ∧
    some (some U64MAX) ≠ (some none : Option (Option Nat)) :=
  ⟨rfl, by decide⟩

/-- C5 amended: for every translation map, an Almanac with an empty seed list
yields `None` from `get_lowest_location` but `Some(u64::MAX)` (a sentinel, not
an absent result) from `get_lowest_location_of_seed_ranges`. -/
theorem empty_seeds_results (m : TranslationMap) :
    Almanac.getLowestLocation ⟨[], m⟩ = none ∧
    Almanac.getLowestLocationOfSeedRanges ⟨[], m⟩ = some (some U64MAX) :=
  ⟨rfl, rfl⟩

/-- Witness for `empty_seeds_results` at a concrete map. -/
theorem empty_seeds_results_witness :
    Almanac.getLowestLocation ⟨[], boundaryMap⟩ = none ∧
    Almanac.getLowestLocationOfSeedRanges ⟨[], boundaryMap⟩ = some (some U64MAX) :=
  empty_seeds_results boundaryMap

/-- C4 counterexample: probing `boundaryMap` with the range `[5, 9)`, whose
intersection with the stored source interval `[0, 5)` is empty (they merely
touch at 5), `walk`'s key filter still collects the entry, while the
spec-side strict-intersection filter collects nothing. -/
theorem adjacent_entry_collected :
    overlapKeys boundaryMap .Seed 5 9 = boundaryMap ∧
    specOverlapKeys boundaryMap .Seed 5 9 = [] :=
  ⟨by decide, by decide⟩

/-- C4 amended: the entries `walk` collects at a stage are exactly the stored
entries of that category whose source interval meets the probe range under
the non-strict test `range.start ≤ key.end ∧ key.start ≤ range.end` — so
entries merely adjacent to the range (touching endpoints) are also included —
taken in the stored (comparator-ascending, hence ascending by source start)
order. -/
theorem overlapKeys_characterization :
    (∀ (m : TranslationMap) (frm : ValueType) (rs re : Nat)
       (kv : TranslationValue × TranslationValue),
      kv ∈ overlapKeys m frm rs re ↔
        kv ∈ m ∧ kv.1.typ = frm ∧ rs ≤ kv.1.stop ∧ kv.1.start ≤ re) ∧
    (∀ (m : TranslationMap) (frm : ValueType) (rs re : Nat),
      m.Pairwise (fun a b => tvCmp a.1 b.1 = .lt) →
      (overlapKeys m frm rs re).Pairwise (fun a b => tvCmp a.1 b.1 = .lt)) := by
  constructor
  · intro m frm rs re kv
    simp [overlapKeys, List.mem_filter]
  · intro m frm rs re h
    exact List.Pairwise.sublist (List.filter_sublist _) h

/-- Witness for `overlapKeys_characterization` on a concrete sorted map. -/
theorem overlapKeys_characterization_witness :
    (overlapKeys boundaryMap .Seed 0 100).Pairwise (fun a b => tvCmp a.1 b.1 = .lt) :=
  overlapKeys_characterization.2 boundaryMap .Seed 0 100 (by decide)

theorem tvCmp_eq_comm (a b : TranslationValue) : tvCmp a b = .eq ↔ tvCmp b a = .eq := by
  unfold tvCmp
  rcases Nat.lt_trichotomy a.typ.idx b.typ.idx with h | h | h
  · simp [Nat.compare_eq_lt.mpr h, Nat.compare_eq_gt.mpr h]
  · rw [Nat.compare_eq_eq.mpr h, Nat.compare_eq_eq.mpr h.symm]
    split_ifs <;> simp_all
  · simp [Nat.compare_eq_lt.mpr h, Nat.compare_eq_gt.mpr h]

theorem mem_insertBTree_self (m : TranslationMap) (k v : TranslationValue)
    (h : ∀ kv ∈ m, tvCmp k kv.1 ≠ .eq) : (k, v) ∈ insertBTree m k v := by
  induction m with
  | nil => simp [insertBTree]
  | cons kv₀ rest ih =>
    obtain ⟨k₀, v₀⟩ := kv₀
    have hne : tvCmp k k₀ ≠ .eq := h (k₀, v₀) (List.mem_cons_self _ _)
    cases hc : tvCmp k k₀ with
    | lt => simp [insertBTree, hc]
    | eq => exact absurd hc hne
    | gt =>
      have hm := ih fun kv hkv => h kv (List.mem_cons_of_mem _ hkv)
      simp [insertBTree, hc, hm]

theorem mem_keys_insertBTree (m : TranslationMap) (k v kk vv : TranslationValue)
    (h : (kk, vv) ∈ m) : ∃ v', (kk, v') ∈ insertBTree m k v := by
  induction m with
  | nil => exact absurd h (List.not_mem_nil _)
  | cons kv₀ rest ih =>
    obtain ⟨k₀, v₀⟩ := kv₀
    rcases List.mem_cons.mp h with heq | hmem
    · rw [Prod.mk.injEq] at heq
      obtain ⟨rfl, rfl⟩ := heq
      cases hc : tvCmp k kk with
      | lt => exact ⟨vv, by simp [insertBTree, hc]⟩
      | eq => exact ⟨v, by simp [insertBTree, hc]⟩
      | gt => exact ⟨vv, by simp [insertBTree, hc]⟩
    · cases hc : tvCmp k k₀ with
      | lt => exact ⟨vv, by simp [insertBTree, hc, hmem]⟩
      | eq => exact ⟨vv, by simp [insertBTree, hc, hmem]⟩
      | gt =>
        obtain ⟨v', hv'⟩ := ih hmem
        exact ⟨v', by simp [insertBTree, hc, hv']⟩

theorem fillGapsLoop_keys_mono (src dst : ValueType) :
    ∀ (keys : List TranslationValue) (m : TranslationMap) (frm : Nat)
      (kk vv : TranslationValue), (kk, vv) ∈ m →
      ∃ v', (kk, v') ∈ fillGapsLoop src dst keys m frm := by
  intro keys
  induction keys with
  | nil => exact fun m frm kk vv h => ⟨vv, h⟩
  | cons key rest ih =>
    intro m frm kk vv h
    simp only [fillGapsLoop]
    by_cases h0 : key.start = 0
    · rw [if_pos h0]
      exact ih m key.start kk vv h
    · rw [if_neg h0]
      cases hcc : containsKey m ⟨src, frm, key.start⟩ with
      | true =>
        simp only [hcc, if_true]
        exact ih m key.start kk vv h
      | false =>
        simp only [hcc, Bool.false_eq_true, if_false]
        obtain ⟨v'', hv''⟩ := mem_keys_insertBTree m ⟨src, frm, key.start⟩ ⟨dst, frm, key.start⟩ kk vv h
        exact ih _ key.start kk v'' hv''

/-- C6 counterexample: after constructing the single section with explicit
source intervals `[10,20)` and `[30,40)`, the point 25 lies below the last
covered boundary (40) yet belongs to no stored source interval: the
candidate gap key `[10,30)` overlaps the existing key `[10,20)` and is
skipped, leaving the interior gap `[20,30)` unfilled. -/
theorem interior_gap_unfilled :
    (processSection [] gapSection).map
        (fun m => m.all fun kv => !(decide (kv.1.start ≤ 25 ∧ 25 < kv.1.stop))) = .ok true ∧
    (processSection [] gapSection).map
        (fun m => m.any fun kv => decide (kv.1.typ = .Seed ∧ 40 ≤ kv.1.stop)) = .ok true :=
  ⟨rfl, rfl⟩

/-- C6 amended: gap-filling synthesizes an identity mapping for the leading
uncovered range `[0, first_key_start)` whenever the first source key starts
above 0 (so every point below the first explicitly covered boundary lies in
some stored source interval afterwards); candidate fills for later gaps start
at the previous key's start and are skipped when they overlap an existing
key, so points in interior gaps below the last covered boundary may remain
uncovered. -/
theorem fillGaps_leading_gap (src dst : ValueType) (m : TranslationMap)
    (k : TranslationValue) (rest : List TranslationValue) (s : Nat)
    (hkeys : ((m.filter fun kv => kv.1.typ == src).map Prod.fst) = k :: rest)
    (h0 : ¬ k.start = 0)
    (hc : containsKey m ⟨src, 0, k.start⟩ = false)
    (hs : s < k.start) :
    coveredBy (fillGaps src dst m) src s := by
  unfold fillGaps
  rw [hkeys]
  simp only [fillGapsLoop]
  rw [if_neg h0]
  simp only [hc, Bool.false_eq_true, if_false]
  have hmem : (⟨src, 0, k.start⟩, (⟨dst, 0, k.start⟩ : TranslationValue)) ∈
      addTranslation m ⟨src, 0, k.start⟩ ⟨dst, 0, k.start⟩ := by
    apply mem_insertBTree_self
    intro kv hkv heq
    have hct : containsKey m ⟨src, 0, k.start⟩ = true := by
      unfold containsKey
      refine List.any_eq_true.mpr ⟨kv, hkv, ?_⟩
      have := (tvCmp_eq_comm _ _).mp heq
      rw [this]
      rfl
    rw [hct] at hc
    exact Bool.noConfusion hc
  obtain ⟨v', hv'⟩ := fillGapsLoop_keys_mono src dst rest _ k.start _ _ hmem
  exact ⟨(⟨src, 0, k.start⟩, v'), hv', rfl, Nat.zero_le s, hs⟩

/-- Witness for `fillGaps_leading_gap` on a one-entry map whose first key
starts at 10: the point 7 is covered after gap-filling. -/
theorem fillGaps_leading_gap_witness :
    coveredBy (fillGaps .Seed .Soil [(⟨.Seed, 10, 20⟩, ⟨.Soil, 100, 110⟩)]) .Seed 7 :=
  fillGaps_leading_gap .Seed .Soil [(⟨.Seed, 10, 20⟩, ⟨.Soil, 100, 110⟩)]
    ⟨.Seed, 10, 20⟩ [] 7 (by decide) (by decide) (by decide) (by decide)

/-- C7 counterexample: an input containing a mapping record with
`length == 0` is accepted, not rejected: construction succeeds and the
zero-length record `[3,3) ↦ [5,5)` enters the table (together with the
synthesized leading identity mapping `[0,3)`). -/
theorem zero_length_accepted :
    buildAlmanac [1] [("seed-to-soil map:", [(5, 3, 0)])] =
      .ok { seeds := [1],
            translation := [(⟨.Seed, 0, 3⟩, ⟨.Soil, 0, 3⟩),
                            (⟨.Seed, 3, 3⟩, ⟨.Soil, 5, 5⟩)] } :=
  rfl

theorem buildMap_invalid_key (hdr : String) (rows : List MappingRow)
    (post : List MapSection) (hk : matchMapKey hdr = none) :
    ∀ (pre : List MapSection) (m : TranslationMap),
      ∃ e, buildMap m (pre ++ (hdr, rows) :: post) = .error e := by
  intro pre
  induction pre with
  | nil =>
    intro m
    refine ⟨.invalidMapKey hdr, ?_⟩
    simp [buildMap, processSection, hk]
  | cons sec rest ih =>
    intro m
    simp only [List.cons_append, buildMap]
    cases hp : processSection m sec with
    | error e => exact ⟨e, rfl⟩
    | ok m' =>
      obtain ⟨e, he⟩ := ih m'
      exact ⟨e, he⟩

/-- C7 amended: construction fails (with `InvalidMapKey`, before any record
of that section enters the table) for every input containing a section whose
header matches none of the seven chain-adjacent category-pair patterns; a
record with `length == 0`, however, is not rejected — no length validation
exists in `from_str` or `add_translation`. -/
theorem build_invalid_key_fails :
    (∀ (seeds : List Nat) (pre : List MapSection) (hdr : String)
       (rows : List MappingRow) (post : List MapSection),
      matchMapKey hdr = none →
      ∃ e, buildAlmanac seeds (pre ++ (hdr, rows) :: post) = .error e) ∧
    (∃ a, buildAlmanac [] [("soil-to-fertilizer map:", [(7, 2, 0)])] = .ok a) := by
  constructor
  · intro seeds pre hdr rows post hk
    obtain ⟨e, he⟩ := buildMap_invalid_key hdr rows post hk pre []
    exact ⟨e, by simp [buildAlmanac, he, Except.map]⟩
  · exact ⟨_, rfl⟩

/-- Witness for `build_invalid_key_fails` at a concrete invalid header. -/
theorem build_invalid_key_fails_witness :
    ∃ e, buildAlmanac [1] ([] ++ ("bogus map:", ([] : List MappingRow)) :: []) = .error e :=
  build_invalid_key_fails.1 [1] [] "bogus map:" [] [] (by decide)

/-- C8: `walk` terminates on every input: `next_variant` strictly decreases
the distance to `Location`, `Location` has no successor, and any fuel
exceeding the chain distance — in particular the chain length 8 used by
`walk` — already computes the fixed result. -/
theorem walk_depth_bounded :
    (∀ c c' : ValueType, c.nextVariant = some c' → c'.rank < c.rank) ∧
    ValueType.Location.nextVariant = none ∧
    (∀ (m : TranslationMap) (frm : ValueType) (rs re f : Nat), frm.rank < f →
      walkF f m frm rs re = walk m frm rs re) := by
  refine ⟨?_, rfl, ?_⟩
  · intro c c' h
    have := rank_of_nextVariant c c' h
    omega
  · intro m frm rs re f hf
    exact walkF_fuel_eq f frm m rs re 8 hf (rank_lt_eight frm)

/-- Witness for `walk_depth_bounded` with surplus fuel on a concrete probe. -/
theorem walk_depth_bounded_witness :
    walkF 20 boundaryMap .Seed 0 0 = walk boundaryMap .Seed 0 0 :=
  walk_depth_bounded.2.2 boundaryMap .Seed 0 0 20 (by decide)

theorem rangesLoop_odd (m : TranslationMap) :
    ∀ (l : List Nat) (minv : Nat), l.length % 2 = 1 →
      rangesLoop m (chunksTwo l) minv = none
  | [], _, h => by simp at h
  | [_], _, _ => rfl
  | a :: b :: rest, minv, h => by
    obtain ⟨r, hr⟩ := Option.isSome_iff_exists.mp (walk_isSome m .Seed a (a + b))
    have hrec := rangesLoop_odd m rest (if r < minv then r else minv)
      (by simp only [List.length_cons] at h ⊢; omega)
    simp [chunksTwo, rangesLoop, hr, hrec]

/-- C9: for every Almanac whose seed list has odd length,
`get_lowest_location_of_seed_ranges` panics (the unguarded `chunk[1]` on the
final one-element chunk, modelled as the outer `none`): the odd pair is
neither skipped nor surfaced as an error. -/
theorem odd_seeds_oob (a : Almanac) (h : a.seeds.length % 2 = 1) :
    a.getLowestLocationOfSeedRanges = none :=
  rangesLoop_odd a.translation a.seeds U64MAX h

/-- Witness for `odd_seeds_oob` at a concrete odd-length seed list. -/
theorem odd_seeds_oob_witness :
    Almanac.getLowestLocationOfSeedRanges ⟨[79, 14, 55], []⟩ = none :=
  odd_seeds_oob ⟨[79, 14, 55], []⟩ (by decide)

/-- C10: `walk` never returns the `None` of its `Option` signature: for every
table and probe range with `start ≤ end` it returns some value, and
consequently `get_location_of_seed` always returns some value. -/
theorem walk_always_some :
    (∀ (m : TranslationMap) (frm : ValueType) (rs re : Nat), rs ≤ re →
      ∃ v, walk m frm rs re = some v) ∧
    (∀ (m : TranslationMap) (s : Nat), ∃ v, getLocationOfSeed m s = some v) := by
  constructor
  · intro m frm rs re _
    exact Option.isSome_iff_exists.mp (walk_isSome m frm rs re)
  · intro m s
    exact Option.isSome_iff_exists.mp (walk_isSome m .Seed s s)

/-- Witness for `walk_always_some` at a concrete probe. -/
theorem walk_always_some_witness :
    ∃ v, walk boundaryMap .Seed 0 100 = some v :=
  walk_always_some.1 boundaryMap .Seed 0 100 (by decide)

end AlmanacLib
